import Mathlib

/-!
Verification development for the y-sweet collaborative document server
(crates `y-sweet` and `y-sweet-core`).

Each definition is a shallow embedding of a function of the source tree:
- `S3Store::prefixed_key`, `S3Store::list_objects`, `S3Store::copy_document`,
  `S3Store::remove` from `crates/y-sweet-core/src/store/s3.rs`;
- `Server::doc_exists`, `Server::doc_gc_worker`, `Server::doc_persistence_worker`,
  `update_doc_inner`, `Server::verify_doc_token`, `Server::check_auth`,
  the asset upload handlers from `crates/y-sweet/src/server.rs`;
- `copy_document`, `delete_document`, `is_allowed_content_type` from
  `crates/y-sweet/src/server_ext.rs`.

Keys and doc ids are modelled as lists of characters so that the slash
normalization done by `prefixed_key` can be reasoned about character by
character.  Byte payloads are lists of naturals.  Store state is an
association list from full (prefixed) keys to payloads where the most
recent write shadows older entries; lookups take the first match, so a
write is an ordinary cons.
-/

namespace YSweet

abbrev Key := List Char
abbrev Bytes := List Nat

/-- Modelled from the spec: the `StoreError` kinds of
`y-sweet-core/src/store` (the module itself is not in the source tree;
its variants are used by `s3.rs` and `server_ext.rs`): a dedicated
"does not exist" kind, connection errors, and a missing bucket. -/
inductive StoreErr
  | doesNotExist (msg : String)
  | connectionError (msg : String)
  | bucketDoesNotExist (msg : String)
deriving DecidableEq, Repr

/-- Whether a character is the path separator `/`. -/
def isSlash (c : Char) : Bool := decide (c = '/')

/-- Rust `str::trim_start_matches('/')`: drop every leading slash. -/
def trimStartSlashes (s : Key) : Key := s.dropWhile isSlash

/-- Rust `str::trim_end_matches('/')`: drop every trailing slash. -/
def trimEndSlashes (s : Key) : Key := (s.reverse.dropWhile isSlash).reverse

/-- Rust `str::trim_matches('/')`: drop slashes at both ends. -/
def trimSlashes (s : Key) : Key := trimStartSlashes (trimEndSlashes s)

/-- `S3Store::prefixed_key` (s3.rs): with a configured bucket prefix, an
empty key maps to the prefix itself and a non-empty key is joined to the
prefix with a single `/`, trimming the prefix's trailing slashes and the
key's leading slashes; with no prefix the key is returned unchanged. -/
def prefixed_key (pf : Option Key) (key : Key) : Key :=
  match pf with
  | some pref => if key = [] then pref
      else trimEndSlashes pref ++ '/' :: trimStartSlashes key
  | none => key

/-- The full listing prefix built by `S3Store::list_objects` (s3.rs):
`self.prefixed_key(prefix).trim_end_matches('/').to_string() + "/"`. -/
def listPfx (pf : Option Key) (q : Key) : Key :=
  trimEndSlashes (prefixed_key pf q) ++ ['/']

/-- `str::strip_prefix` as used by `list_objects`: remove `p` from the
front of `s`, or fail. -/
def stripPfx : Key → Key → Option Key
  | [], s => some s
  | _ :: _, [] => none
  | a :: as, b :: bs => if a = b then stripPfx as bs else none

/-- A key fragment containing no path separator, as guaranteed for doc
ids by `validate_doc_name` (api_types.rs): names draw from an
ASCII-safe set that excludes `/`. -/
def slashFree (d : Key) : Prop := ∀ c ∈ d, c ≠ '/'

/-- Store contents: full (already prefixed) key to payload, latest write
first. -/
abbrev StoreMap := List (Key × Bytes)

/-- First-match lookup in the store. -/
def lookupKey (st : StoreMap) (k : Key) : Option Bytes :=
  (st.find? (fun e => decide (e.1 = k))).map (fun e => e.2)

/-- A `PutObject`: the new entry shadows any older one. -/
def setKey (st : StoreMap) (k : Key) (v : Bytes) : StoreMap := (k, v) :: st

/-- A `DeleteObject` erases every entry stored under `k`. -/
def eraseKey (st : StoreMap) (k : Key) : StoreMap :=
  st.filter (fun e => !decide (e.1 = k))

/-- `S3Store::list_objects` (s3.rs): list every object whose full key
starts with the listing prefix, returning the relative remainder of the
key and skipping empty remainders.  Pagination is transparent, so the
model returns one flat sequence. -/
def list_objects (pf : Option Key) (st : StoreMap) (q : Key) : List Key :=
  st.filterMap (fun e =>
    match stripPfx (listPfx pf q) e.1 with
    | some r => if r = [] then none else some r
    | none => none)

/-- The S3 `DeleteObject` call.  Per the S3 service contract the call
succeeds whether or not the key exists (a delete of an absent object
returns 204), so in the fault-free store model it always succeeds and
erases the key. -/
def s3DeleteObject (st : StoreMap) (k : Key) : Except StoreErr StoreMap :=
  .ok (eraseKey st k)

/-- `S3Store::remove` (s3.rs): delete the object stored under the
prefixed key; any SDK error would be mapped to `ConnectionError`, but in
the fault-free model the delete always succeeds. -/
def s3_remove (pf : Option Key) (st : StoreMap) (key : Key) :
    Except StoreErr StoreMap :=
  s3DeleteObject st (prefixed_key pf key)

/-- `S3Store::copy_object_server_side` (s3.rs): a server-side
`CopyObject` from the prefixed source key to the prefixed destination
key.  S3 fails the call when the source object is absent; the code maps
that to `ConnectionError`. -/
def copy_object_server_side (pf : Option Key) (st : StoreMap)
    (srcKey dstKey : Key) : Except StoreErr StoreMap :=
  match lookupKey st (prefixed_key pf srcKey) with
  | some v => .ok (setKey st (prefixed_key pf dstKey) v)
  | none => .error (.connectionError "Failed to copy object")

/-- One iteration of the copy loop in `S3Store::copy_document`:
`src_key = format!("{}/{}", source_doc_id.trim_matches('/'), rel)` and
likewise for the destination. -/
def copyStep (pf : Option Key) (srcT dstT : Key) (acc : StoreMap)
    (rel : Key) : Except StoreErr StoreMap :=
  copy_object_server_side pf acc (srcT ++ '/' :: rel) (dstT ++ '/' :: rel)

/-- `S3Store::copy_document` (s3.rs): list every object below
`{src}/` (ids trimmed of surrounding slashes) and server-side copy each
one to the same relative suffix below `{dst}/`. -/
def s3_copy_document (pf : Option Key) (st : StoreMap) (srcId dstId : Key) :
    Except StoreErr StoreMap :=
  (list_objects pf st (trimSlashes srcId ++ ['/'])).foldlM
    (copyStep pf (trimSlashes srcId) (trimSlashes dstId)) st

/-- The relative key of the snapshot object: `data.ysweet`. -/
def dataRel : Key := "data.ysweet".toList

/-- Server state relevant to `copy_document` in server_ext.rs: the
in-memory registry of loaded documents (doc id to the byte snapshot
`SyncKv::persist` would write) and the object store. -/
structure CopySrvState where
  docs : List (Key × Bytes)
  store : StoreMap

/-- Lookup of a loaded document in the registry. -/
def lookupDoc (docs : List (Key × Bytes)) (docId : Key) : Option Bytes :=
  (docs.find? (fun e => decide (e.1 = docId))).map (fun e => e.2)

/-- Modelled from the spec: `SyncKv::persist` (sync_kv.rs is not in the
source tree) snapshots the current in-memory map and writes one object
to the store at `{doc_id}/data.ysweet`.  If the document is not loaded
there is nothing to flush. -/
def persistDoc (pf : Option Key) (st : CopySrvState) (docId : Key) :
    StoreMap :=
  match lookupDoc st.docs docId with
  | some snap => setKey st.store (prefixed_key pf (docId ++ '/' :: dataRel)) snap
  | none => st.store

/-- Error kinds surfaced by the HTTP handlers (`AppError` status codes
in server.rs / server_ext.rs). -/
inductive HttpErr
  | unauthorized
  | forbidden
  | notFound
  | badRequest
  | internal
deriving DecidableEq, Repr

/-- `copy_document` (server_ext.rs): after authentication, id
validation and the source-existence check, force a persist of the
source document if it is loaded in memory, then invoke the store's
server-side `copy_document`.  The booleans stand for the outcome of
`check_auth`, `validate_doc_name` on both ids, and `doc_exists` on the
source. -/
def copy_document (pf : Option Key) (authOk srcValid dstValid srcExists : Bool)
    (st : CopySrvState) (srcId dstId : Key) : Except HttpErr StoreMap :=
  if !authOk then .error .unauthorized
  else if !srcValid then .error .badRequest
  else if !dstValid then .error .badRequest
  else if !srcExists then .error .notFound
  else
    let store1 := persistDoc pf st srcId
    match s3_copy_document pf store1 srcId dstId with
    | .ok st2 => .ok st2
    | .error _ => .error .internal

/-- One observation of the GC loop in `Server::doc_gc_worker`
(server.rs): either the sleep elapses and the worker reads the registry
(`present`: the doc is still in the `docs` map; `strong`: the strong
count of the `DocState`'s awareness handle at that instant), or the
cancellation token fires first. -/
inductive GcEvent
  | tick (present : Bool) (strong : Nat)
  | cancel
deriving DecidableEq, Repr

/-- How a run of `Server::doc_gc_worker` ended (or that it is still
looping when the observed trace ran out). -/
inductive GcOutcome
  | evicted
  | exitMissing
  | exitCancelled
  | running (counter : Nat)
deriving DecidableEq, Repr

/-- Result of a GC-worker run: the way the loop ended, whether the
worker called `SyncKv::shutdown`, and whether it removed the document
from the registry. -/
structure GcResult where
  outcome : GcOutcome
  kvShutdown : Bool
  removedFromRegistry : Bool
deriving DecidableEq, Repr

/-- `Server::doc_gc_worker` (server.rs): every `checkpoint_freq` read
the registry; if the doc is present and its awareness handle has strong
count `> 1` reset `checkpoints_without_refs` to 0, otherwise increment
it; if the doc is gone, exit; if the counter reached 2, shut down the
SyncKv, remove the doc from the registry and exit.  Cancellation exits
without evicting. -/
def doc_gc_worker : Nat → List GcEvent → GcResult
  | c, [] => ⟨.running c, false, false⟩
  | _, .cancel :: _ => ⟨.exitCancelled, false, false⟩
  | c, .tick present strong :: rest =>
      if present then
        let cNew := if 1 < strong then 0 else c + 1
        if 2 ≤ cNew then ⟨.evicted, true, true⟩
        else doc_gc_worker cNew rest
      else ⟨.exitMissing, false, false⟩

/-- How one `tokio::select!` of `Server::doc_persistence_worker`
(server.rs) resolved: a dirty signal arrived, the dirty channel closed,
the cancellation token fired, or the `checkpoint_freq` timeout elapsed
(in which case the shutdown flag of the SyncKv is read). -/
inductive SelectOutcome
  | recvDirty
  | recvClosed
  | cancelled
  | timeout (shutdown : Bool)
deriving DecidableEq, Repr

/-- The `is_done` computation of `Server::doc_persistence_worker`:
channel closed, cancellation, or timeout with the SyncKv shut down. -/
def selectDone : SelectOutcome → Bool
  | .recvDirty => false
  | .recvClosed => true
  | .cancelled => true
  | .timeout s => s

/-- One outer iteration of the persistence worker as observed from the
SyncKv: the mutations completed since the previous persist (including
any that land while the iteration throttles) and the way the select
resolved. -/
structure PwIter where
  ops : List Nat
  out : SelectOutcome
deriving DecidableEq, Repr

/-- `Server::doc_persistence_worker` (server.rs), content view: each
outer iteration folds the newly completed mutations into the in-memory
map, persists a snapshot of that map exactly once, and exits right
after the persist when `is_done` held.  Returns the list of persisted
snapshots and whether the loop exited. -/
def doc_persistence_worker : List PwIter → List Nat → List (List Nat) × Bool
  | [], _ => ([], false)
  | it :: rest, kv =>
      let kvNew := kv ++ it.ops
      if selectDone it.out then ([kvNew], true)
      else
        let r := doc_persistence_worker rest kvNew
        (kvNew :: r.1, r.2)

/-- The snapshots `doc_persistence_worker` persists on a run that ends
with the done iteration `lastIt`: one snapshot per iteration, each the
in-memory map after folding in that iteration's completed mutations. -/
def pwSnapshots (kv : List Nat) : List PwIter → PwIter → List (List Nat)
  | [], lastIt => [kv ++ lastIt.ops]
  | it :: rest, lastIt => (kv ++ it.ops) :: pwSnapshots (kv ++ it.ops) rest lastIt

/-- Wake time of one iteration of the persistence worker, timing view:
the select resolves at the earlier of the next dirty signal and the
`lastSave + freq` timeout, and a signal already pending resolves
immediately (at `lastSave`). -/
def pwWake (freq lastSave : Nat) (ds : List Nat) : Nat :=
  match ds.head? with
  | some t => max lastSave (min t (lastSave + freq))
  | none => lastSave + freq

/-- The instant one iteration persists, timing view of
`Server::doc_persistence_worker`: if less than `freq` elapsed since the
last save, sleep for the remaining interval before persisting. -/
def pwPersistInstant (freq lastSave : Nat) (ds : List Nat) : Nat :=
  let w := pwWake freq lastSave ds
  if w - lastSave < freq then lastSave + freq else w

/-- `Server::doc_persistence_worker` (server.rs), timing view: the
sequence of instants at which the worker persists, given the arrival
times of dirty signals.  Dirty signals consumed while waking or
throttling (every signal up to the persist instant) are discarded;
`fuel` bounds the number of iterations observed. -/
def pwPersistTimes (freq : Nat) : Nat → Nat → List Nat → List Nat
  | 0, _, _ => []
  | fuel + 1, lastSave, ds =>
      let pt := pwPersistInstant freq lastSave ds
      pt :: pwPersistTimes freq fuel pt (ds.filter (fun t => decide (pt < t)))

/-- Modelled from the spec: the `Authorization` token attribute of
`y-sweet-core/src/api_types.rs` (not in the source tree), with values
`Full` (read+write) and `ReadOnly`. -/
inductive Authorization
  | Full
  | ReadOnly
deriving DecidableEq, Repr

/-- Per-document CRDT content as the sequence of updates applied to it. -/
abbrev DocContent := List Bytes

/-- Modelled from the spec: `DocWithSyncKv::apply_update` integrates an
external update into the CRDT and fails with `InvalidUpdate` when the
bytes do not decode (`doc_sync.rs` is not in the source tree; the CRDT
decoder is the opaque parameter `decode`). -/
def applyUpdate (decode : Bytes → Bool) (d : DocContent) (body : Bytes) :
    Except HttpErr DocContent :=
  if decode body then .ok (d ++ [body]) else .error .internal

/-- The registry of loaded documents for the update path. -/
abbrev DocsMap := List (String × DocContent)

/-- Lookup of a loaded document by id. -/
def findDocContent (docs : DocsMap) (docId : String) : Option DocContent :=
  (docs.find? (fun e => decide (e.1 = docId))).map (fun e => e.2)

/-- Replace the content stored for `docId`. -/
def storeDocContent (docs : DocsMap) (docId : String) (d : DocContent) :
    DocsMap :=
  docs.map (fun e => if e.1 = docId then (e.1, d) else e)

/-- `Server::get_or_create_doc` (server.rs) on the update path: return
the loaded document, loading an empty one (snapshot absent) on a cache
miss. -/
def getOrCreateDoc (docs : DocsMap) (docId : String) : DocsMap × DocContent :=
  match findDocContent docs docId with
  | some d => (docs, d)
  | none => (docs ++ [(docId, [])], [])

/-- `update_doc_inner` (server.rs): reject with 403 Forbidden unless the
verified authorization is `Full`; otherwise get-or-create the document
and apply the update body, acknowledging with 200 on success.  The
returned registry is the registry after the request. -/
def update_doc_inner (decode : Bytes → Bool) (docs : DocsMap)
    (docId : String) (authorization : Authorization) (body : Bytes) :
    DocsMap × Except HttpErr Unit :=
  match authorization with
  | .ReadOnly => (docs, .error .forbidden)
  | .Full =>
      let p := getOrCreateDoc docs docId
      match applyUpdate decode p.2 body with
      | .ok dNew => (storeDocContent p.1 docId dNew, .ok ())
      | .error e => (p.1, .error e)

/-- A store handle whose existence check can fail, as seen by
`Server::doc_exists`. -/
structure ExistsStore where
  existsFn : String → Except StoreErr Bool

/-- `Server::doc_exists` (server.rs): true when the doc id is in the
in-memory registry; otherwise ask the store whether
`{doc_id}/data.ysweet` exists, turning a store failure into `false` via
`unwrap_or_default()`; with no store configured the answer is false. -/
def doc_exists (docs : List String) (store : Option ExistsStore)
    (docId : String) : Bool :=
  if docId ∈ docs then true
  else
    match store with
    | some s =>
        match s.existsFn (docId ++ "/data.ysweet") with
        | .ok b => b
        | .error _ => false
    | none => false

/-- The top-level MIME type of a content type, modelling the `mime`
crate's parser on plain `type/subtype` strings: the part before the
single `/`, with both parts required non-empty. -/
def mimeTopLevel (ct : String) : Option String :=
  let cs := ct.toList
  let t := cs.takeWhile (fun c => !isSlash c)
  match cs.dropWhile (fun c => !isSlash c) with
  | [] => none
  | _ :: sub =>
      if t = [] ∨ sub = [] ∨ sub.contains '/' then none
      else some (String.mk t)

/-- `is_allowed_content_type` (server_ext.rs): the content type parses
and its top-level type is `image` or `video`. -/
def is_allowed_content_type (ct : String) : Bool :=
  match mimeTopLevel ct with
  | some t => decide (t = "image") || decide (t = "video")
  | none => false

/-- The extension table consulted through `mime_guess` by
`get_extension_from_content_type`, restricted to the content types this
development instantiates. -/
def extTable : List (String × String) :=
  [("image/png", "png"), ("video/mp4", "mp4"), ("application/pdf", "pdf")]

/-- `get_extension_from_content_type` (server.rs / server_ext.rs):
`format!(".{}", extension)` where the extension is looked up for the
parsed mime type and defaults to `bin`. -/
def get_extension_from_content_type (ct : String) : String :=
  "." ++ ((extTable.lookup ct).getD "bin")

/-- Response of the presign-upload handlers. -/
structure ContentUploadResponse where
  uploadUrl : String
  assetId : String
deriving DecidableEq, Repr

/-- Context of one presign-upload request: outcome of
`verify_doc_token`, outcome of `doc_exists`, and the `cuid2()` value
generated for the asset. -/
structure UploadCtx where
  tokenOk : Bool
  docFound : Bool
  assetIdGen : String
deriving DecidableEq, Repr

/-- The presigned upload URL minted by the store for a key (the model
keeps the key visible inside the URL). -/
def presignUrl (key : String) : String := "https://store.example/" ++ key

/-- `generate_upload_presigned_url` (server_ext.rs): verify the doc
token, check the document exists, reject content types that are not
images or videos with 400, then mint an upload URL for
`{doc_id}/assets/{cuid2}{.ext}` and return it with the asset name. -/
def generate_upload_presigned_url_ext (ctx : UploadCtx)
    (docId ct : String) : Except HttpErr ContentUploadResponse :=
  if !ctx.tokenOk then .error .unauthorized
  else if !ctx.docFound then .error .notFound
  else if !is_allowed_content_type ct then .error .badRequest
  else
    let assetName := ctx.assetIdGen ++ get_extension_from_content_type ct
    let key := docId ++ "/assets/" ++ assetName
    .ok ⟨presignUrl key, assetName⟩

/-- `generate_upload_presigned_url` (server.rs): same handler on the
primary router, which mints the URL without any content-type
validation. -/
def generate_upload_presigned_url_main (ctx : UploadCtx)
    (docId ct : String) : Except HttpErr ContentUploadResponse :=
  if !ctx.tokenOk then .error .unauthorized
  else if !ctx.docFound then .error .notFound
  else
    let assetName := ctx.assetIdGen ++ get_extension_from_content_type ct
    let key := docId ++ "/assets/" ++ assetName
    .ok ⟨presignUrl key, assetName⟩

/-- Modelled from the spec: the `Authenticator` of
`y-sweet-core/src/auth.rs` (not in the source tree), reduced to the two
verification capabilities the server calls. -/
structure Authenticator where
  verifyServerToken : String → Nat → Except String Unit
  verifyDocTokenFn : String → String → Nat → Except String Authorization

/-- `Server::verify_doc_token` (server.rs): with an authenticator,
verify the provided token (no token is 401); without an authenticator,
every request gets `Full` authorization. -/
def verify_doc_token (auth : Option Authenticator) (token : Option String)
    (doc : String) (now : Nat) : Except HttpErr Authorization :=
  match auth with
  | some a =>
      match token with
      | some t =>
          match a.verifyDocTokenFn t doc now with
          | .ok z => .ok z
          | .error _ => .error .unauthorized
      | none => .error .unauthorized
  | none => .ok .Full

/-- `Server::check_auth` (server.rs): with an authenticator, require a
bearer header carrying a valid server token; without one, every
request passes. -/
def check_auth (auth : Option Authenticator) (bearer : Option String)
    (now : Nat) : Except HttpErr Unit :=
  match auth with
  | some a =>
      match bearer with
      | some t =>
          match a.verifyServerToken t now with
          | .ok _ => .ok ()
          | .error _ => .error .unauthorized
      | none => .error .unauthorized
  | none => .ok ()

/-! ## Theorems -/

/-- C10: with no authenticator configured, `check_auth` succeeds for any
(or no) bearer header and `verify_doc_token` returns `Full`
authorization for every document and every token argument, including
`none`, so all write operations are permitted without credentials. -/
theorem c10_no_authenticator_all_authorized :
    (∀ (token : Option String) (doc : String) (now : Nat),
        verify_doc_token none token doc now = .ok .Full) ∧
    (∀ (bearer : Option String) (now : Nat),
        check_auth none bearer now = .ok ()) := by
  exact ⟨fun _ _ _ => rfl, fun _ _ => rfl⟩

/-- C4: `update_doc_inner` rejects every request whose verified
authorization is not `Full` with a Forbidden error, leaving the
registry untouched and never applying the body; with `Full`
authorization on a loaded document whose body decodes, the update is
appended to the document and the request is acknowledged. -/
theorem c4_update_doc_authorization (decode : Bytes → Bool) (docs : DocsMap)
    (docId : String) (body : Bytes) :
    update_doc_inner decode docs docId .ReadOnly body =
      (docs, .error .forbidden) ∧
    (∀ d, findDocContent docs docId = some d → decode body = true →
        update_doc_inner decode docs docId .Full body =
          (storeDocContent docs docId (d ++ [body]), .ok ())) := by
  refine ⟨rfl, fun d hd hdec => ?_⟩
  simp [update_doc_inner, getOrCreateDoc, applyUpdate, hd, hdec]

/-- Witness for C4 at a concrete registry and update body. -/
theorem c4_witness :
    findDocContent [("d1", ([] : DocContent))] "d1" = some [] ∧
    (fun _ : Bytes => true) [1] = true ∧
    update_doc_inner (fun _ => true) [("d1", [])] "d1" .Full [1] =
      (storeDocContent [("d1", [])] "d1" [[1]], .ok ()) ∧
    update_doc_inner (fun _ => true) [("d1", [])] "d1" .ReadOnly [1] =
      ([("d1", [])], .error .forbidden) :=
  ⟨rfl, rfl,
    (c4_update_doc_authorization (fun _ => true) [("d1", [])] "d1" [1]).2
      [] rfl rfl,
    (c4_update_doc_authorization (fun _ => true) [("d1", [])] "d1" [1]).1⟩

/-- C5 counterexample: with the document absent from the registry and a
store whose existence check fails, `doc_exists` returns plain `false`
(non-existence); the store failure is not propagated to the caller. -/
theorem c5_counterexample :
    doc_exists []
      (some ⟨fun _ => .error (.connectionError "store unreachable")⟩)
      "d1" = false ∧
    (ExistsStore.mk (fun _ => .error (.connectionError "store unreachable"))).existsFn
      "d1/data.ysweet" = .error (.connectionError "store unreachable") :=
  ⟨rfl, rfl⟩

/-- C5 (amended): `doc_exists` returns true when the doc is in the
in-memory registry, reports the store's answer when the existence check
succeeds, and reports `false` both when no store is configured and when
the store check fails (the error is swallowed by `unwrap_or_default`,
not propagated). -/
theorem c5_doc_exists_amended :
    (∀ (docs : List String) (store : Option ExistsStore) (docId : String),
        docId ∈ docs → doc_exists docs store docId = true) ∧
    (∀ (docs : List String) (s : ExistsStore) (docId : String) (b : Bool),
        docId ∉ docs → s.existsFn (docId ++ "/data.ysweet") = .ok b →
        doc_exists docs (some s) docId = b) ∧
    (∀ (docs : List String) (s : ExistsStore) (docId : String) (e : StoreErr),
        docId ∉ docs → s.existsFn (docId ++ "/data.ysweet") = .error e →
        doc_exists docs (some s) docId = false) ∧
    (∀ (docs : List String) (docId : String),
        docId ∉ docs → doc_exists docs none docId = false) := by
  refine ⟨fun docs store docId h => ?_, fun docs s docId b h he => ?_,
    fun docs s docId e h he => ?_, fun docs docId h => ?_⟩
  · simp [doc_exists, h]
  · simp [doc_exists, h, he]
  · simp [doc_exists, h, he]
  · simp [doc_exists, h]

/-- Witness for C5's amended theorem at concrete stores. -/
theorem c5_witness :
    doc_exists ["mem"] none "mem" = true ∧
    doc_exists [] (some ⟨fun _ => .ok true⟩) "d2" = true ∧
    doc_exists [] (some ⟨fun _ => .error (.connectionError "x")⟩) "d3" = false ∧
    doc_exists [] none "d4" = false :=
  ⟨(c5_doc_exists_amended).1 ["mem"] none "mem" (by decide),
    (c5_doc_exists_amended).2.1 [] ⟨fun _ => .ok true⟩ "d2" true
      (by decide) rfl,
    (c5_doc_exists_amended).2.2.1 [] ⟨fun _ => .error (.connectionError "x")⟩
      "d3" (.connectionError "x") (by decide) rfl,
    (c5_doc_exists_amended).2.2.2 [] "d4" (by decide)⟩

/-- Erasing a key that has no entry leaves the store unchanged. -/
theorem eraseKey_of_lookup_none {st : StoreMap} {k : Key}
    (h : lookupKey st k = none) : eraseKey st k = st := by
  apply List.filter_eq_self.mpr
  intro e he
  have hfind : st.find? (fun e => decide (e.1 = k)) = none := by
    cases hf : st.find? (fun e => decide (e.1 = k)) with
    | none => rfl
    | some e0 => simp [lookupKey, hf] at h
  have := List.find?_eq_none.mp hfind e he
  simpa using this

/-- Erasing twice is the same as erasing once. -/
theorem eraseKey_idem (st : StoreMap) (k : Key) :
    eraseKey (eraseKey st k) k = eraseKey st k := by
  apply List.filter_eq_self.mpr
  intro e he
  exact (List.mem_filter.mp he).2

/-- C9: in the fault-free store model, `S3Store::remove` always
succeeds (the S3 delete of an absent object is a success, so no error
kind other than `DoesNotExist` can be produced for a missing key),
removing an absent key leaves the store unchanged, and removing twice
is indistinguishable from removing once. -/
theorem c9_remove_idempotent :
    (∀ (pf : Option Key) (st : StoreMap) (k : Key),
        ∃ st1, s3_remove pf st k = .ok st1) ∧
    (∀ (pf : Option Key) (st : StoreMap) (k : Key),
        lookupKey st (prefixed_key pf k) = none →
        s3_remove pf st k = .ok st) ∧
    (∀ (pf : Option Key) (st : StoreMap) (k : Key) (st1 : StoreMap),
        s3_remove pf st k = .ok st1 → s3_remove pf st1 k = .ok st1) := by
  refine ⟨fun pf st k => ⟨eraseKey st (prefixed_key pf k), rfl⟩,
    fun pf st k h => ?_, fun pf st k st1 h => ?_⟩
  · simp [s3_remove, s3DeleteObject, eraseKey_of_lookup_none h]
  · have h1 : st1 = eraseKey st (prefixed_key pf k) := by
      simpa [s3_remove, s3DeleteObject] using h.symm
    simp [s3_remove, s3DeleteObject, h1, eraseKey_idem]

/-- Witness for C9 at a concrete store: `a.txt` is present, `gone` is
absent. -/
theorem c9_witness :
    lookupKey [("a".toList, [1])] (prefixed_key none "gone".toList) = none ∧
    s3_remove none [("a".toList, [1])] "gone".toList =
      .ok [("a".toList, [1])] ∧
    s3_remove none [("a".toList, [1])] "a".toList = .ok [] ∧
    s3_remove none [] "a".toList = .ok [] :=
  ⟨by decide,
    (c9_remove_idempotent).2.1 none [("a".toList, [1])] "gone".toList
      (by decide),
    by rfl,
    (c9_remove_idempotent).2.2 none [("a".toList, [1])] "a".toList []
      (by rfl)⟩

/-- C1: the GC worker never evicts a document while a connection holds
a strong reference to its awareness handle (a strong count above 1
resets the idle counter to 0), and once two consecutive checkpoint
intervals observe the document loaded with no connection, it shuts down
the SyncKv, removes the document from the registry, and exits. -/
theorem c1_gc_worker :
    (∀ (c : Nat) (evts : List GcEvent),
        (∀ p s, GcEvent.tick p s ∈ evts → 1 < s) →
        (doc_gc_worker c evts).outcome ≠ .evicted ∧
        (doc_gc_worker c evts).kvShutdown = false ∧
        (doc_gc_worker c evts).removedFromRegistry = false) ∧
    (∀ (c s : Nat) (rest : List GcEvent), 1 < s →
        doc_gc_worker c (.tick true s :: rest) = doc_gc_worker 0 rest) ∧
    (∀ (rest : List GcEvent) (s1 s2 : Nat), s1 ≤ 1 → s2 ≤ 1 →
        doc_gc_worker 0 (.tick true s1 :: .tick true s2 :: rest) =
          ⟨.evicted, true, true⟩) := by
  refine ⟨fun c evts => ?_, fun c s rest hs => ?_,
    fun rest s1 s2 h1 h2 => ?_⟩
  · induction evts generalizing c with
    | nil => intro _; exact ⟨by simp [doc_gc_worker], rfl, rfl⟩
    | cons e rest ih =>
      intro hall
      cases e with
      | cancel => exact ⟨by simp [doc_gc_worker], rfl, rfl⟩
      | tick p s =>
        have hs : 1 < s := hall p s (List.mem_cons_self _ _)
        cases p with
        | false => exact ⟨by simp [doc_gc_worker], rfl, rfl⟩
        | true =>
          have : doc_gc_worker c (GcEvent.tick true s :: rest) =
              doc_gc_worker 0 rest := by
            simp [doc_gc_worker, hs]
          rw [this]
          exact ih 0 (fun p' s' h => hall p' s' (List.mem_cons_of_mem _ h))
  · simp [doc_gc_worker, hs]
  · have h1' : ¬ 1 < s1 := by omega
    have h2' : ¬ 1 < s2 := by omega
    simp [doc_gc_worker, h1', h2']

/-- Witness for C1: a doc observed with 2 references is not evicted; a
doc observed idle twice in a row is evicted, shut down, and removed. -/
theorem c1_witness :
    ((doc_gc_worker 0 [.tick true 2, .tick true 3]).outcome ≠ .evicted ∧
      (doc_gc_worker 0 [.tick true 2, .tick true 3]).kvShutdown = false ∧
      (doc_gc_worker 0 [.tick true 2, .tick true 3]).removedFromRegistry
        = false) ∧
    doc_gc_worker 5 [.tick true 7] = doc_gc_worker 0 [] ∧
    doc_gc_worker 0 [.tick true 1, .tick true 0] = ⟨.evicted, true, true⟩ :=
  ⟨(c1_gc_worker).1 0 [.tick true 2, .tick true 3]
      (by
        intro p s h
        rcases List.mem_cons.mp h with h1 | h1
        · cases h1; omega
        · rcases List.mem_cons.mp h1 with h2 | h2
          · cases h2; omega
          · cases h2),
    (c1_gc_worker).2.1 5 7 [] (by omega),
    (c1_gc_worker).2.2 [] 1 0 (by omega) (by omega)⟩

/-- A persistence-worker run whose trace ends in a done iteration
persists the snapshots `pwSnapshots`, exits, and never reads past the
done iteration. -/
theorem pw_run_eq (lastIt : PwIter) (hlast : selectDone lastIt.out = true)
    (junk : List PwIter) :
    ∀ (pre : List PwIter) (kv : List Nat),
      (∀ it ∈ pre, selectDone it.out = false) →
      doc_persistence_worker (pre ++ lastIt :: junk) kv =
        (pwSnapshots kv pre lastIt, true) := by
  intro pre
  induction pre with
  | nil =>
    intro kv _
    simp [doc_persistence_worker, pwSnapshots, hlast]
  | cons it rest ih =>
    intro kv hpre
    have hit : selectDone it.out = false := hpre it (List.mem_cons_self _ _)
    have := ih (kv ++ it.ops) (fun x hx => hpre x (List.mem_cons_of_mem _ hx))
    simp [doc_persistence_worker, pwSnapshots, hit, this]

/-- There is one snapshot per iteration of the run. -/
theorem pwSnapshots_length (lastIt : PwIter) :
    ∀ (pre : List PwIter) (kv : List Nat),
      (pwSnapshots kv pre lastIt).length = pre.length + 1 := by
  intro pre
  induction pre with
  | nil => intro kv; simp [pwSnapshots]
  | cons it rest ih => intro kv; simp [pwSnapshots, ih]

/-- The last snapshot of the run is the whole in-memory map: the
initial contents plus every mutation of every iteration. -/
theorem pwSnapshots_getLast (lastIt : PwIter) :
    ∀ (pre : List PwIter) (kv : List Nat),
      (pwSnapshots kv pre lastIt).getLast? =
        some (kv ++ ((pre ++ [lastIt]).map PwIter.ops).flatten) := by
  intro pre
  induction pre with
  | nil => intro kv; simp [pwSnapshots]
  | cons it rest ih =>
    intro kv
    rw [pwSnapshots, List.getLast?_cons, ih]
    simp

/-- C2: when the select resolves as done (cancellation, closed dirty
channel, or timeout with the SyncKv shut down), the persistence worker
performs exactly one final persist and exits: the run produces one
snapshot per iteration, ends at the done iteration regardless of later
events, and its last persisted snapshot contains every mutation
completed before the done signal. -/
theorem c2_persistence_final_persist (pre : List PwIter) (lastIt : PwIter)
    (junk : List PwIter)
    (hpre : ∀ it ∈ pre, selectDone it.out = false)
    (hlast : selectDone lastIt.out = true) :
    doc_persistence_worker (pre ++ lastIt :: junk) [] =
      (pwSnapshots [] pre lastIt, true) ∧
    (pwSnapshots [] pre lastIt).length = pre.length + 1 ∧
    (pwSnapshots [] pre lastIt).getLast? =
      some (((pre ++ [lastIt]).map PwIter.ops).flatten) ∧
    (∀ it ∈ pre ++ [lastIt], ∀ m ∈ it.ops, ∀ snap,
        (pwSnapshots [] pre lastIt).getLast? = some snap → m ∈ snap) := by
  refine ⟨pw_run_eq lastIt hlast junk pre [] hpre,
    pwSnapshots_length lastIt pre [],
    by simpa using pwSnapshots_getLast lastIt pre [],
    ?_⟩
  intro it hit m hm snap hsnap
  have h := pwSnapshots_getLast lastIt pre []
  rw [hsnap] at h
  have hsnapEq : snap = ((pre ++ [lastIt]).map PwIter.ops).flatten := by
    simpa using h
  subst hsnapEq
  exact List.mem_flatten.mpr ⟨it.ops, List.mem_map.mpr ⟨it, hit, rfl⟩, hm⟩

/-- Witness for C2: one dirty iteration, then cancellation; the final
persist holds both mutations and the worker exits. -/
theorem c2_witness :
    doc_persistence_worker
        [⟨[1], .recvDirty⟩, ⟨[2], .cancelled⟩, ⟨[9], .recvDirty⟩] [] =
      (pwSnapshots [] [⟨[1], .recvDirty⟩] ⟨[2], .cancelled⟩, true) ∧
    (pwSnapshots [] [⟨[1], .recvDirty⟩] ⟨[2], .cancelled⟩).getLast? =
      some [1, 2] :=
  ⟨(c2_persistence_final_persist [⟨[1], .recvDirty⟩] ⟨[2], .cancelled⟩
      [⟨[9], .recvDirty⟩]
      (by intro it hit; rcases List.mem_singleton.mp hit with h; cases h; rfl)
      rfl).1,
    by rfl⟩

/-- The select never resolves before the iteration starts nor after the
`checkpoint_freq` timeout. -/
theorem pwWake_bounds (freq lastSave : Nat) (ds : List Nat) :
    lastSave ≤ pwWake freq lastSave ds ∧
    pwWake freq lastSave ds ≤ lastSave + freq := by
  unfold pwWake
  cases hds : ds.head? <;> dsimp only <;> omega

/-- Each iteration persists exactly when the `checkpoint_freq` window
since the last save has elapsed. -/
theorem pwPersistInstant_eq (freq lastSave : Nat) (ds : List Nat) :
    pwPersistInstant freq lastSave ds = lastSave + freq := by
  have h := pwWake_bounds freq lastSave ds
  show (if pwWake freq lastSave ds - lastSave < freq then lastSave + freq
      else pwWake freq lastSave ds) = lastSave + freq
  split <;> omega

/-- Every persist of the run happens at or after the end of the current
window. -/
theorem pwPersistTimes_lower (freq : Nat) :
    ∀ (fuel lastSave : Nat) (ds : List Nat) (p : Nat),
      p ∈ pwPersistTimes freq fuel lastSave ds → lastSave + freq ≤ p := by
  intro fuel
  induction fuel with
  | zero => intro lastSave ds p hp; simp [pwPersistTimes] at hp
  | succ fuel ih =>
    intro lastSave ds p hp
    rw [pwPersistTimes] at hp
    rcases List.mem_cons.mp hp with h | h
    · rw [h, pwPersistInstant_eq]
    · have := ih _ _ _ h
      rw [pwPersistInstant_eq] at this
      omega

/-- C3: the persistence worker persists at most once per
`checkpoint_freq` window: every persist happens only once the window
since the last save has elapsed (dirty signals arriving earlier are
consumed and discarded while throttling), and any half-open window of
length `checkpoint_freq` contains at most one persist instant. -/
theorem c3_persist_throttling (freq : Nat) (hf : 0 < freq) :
    (∀ (fuel lastSave : Nat) (ds : List Nat) (p : Nat),
        p ∈ pwPersistTimes freq fuel lastSave ds → lastSave + freq ≤ p) ∧
    (∀ (fuel lastSave : Nat) (ds : List Nat) (w : Nat),
        ((pwPersistTimes freq fuel lastSave ds).filter
            (fun p => decide (w ≤ p) && decide (p < w + freq))).length ≤ 1) := by
  refine ⟨pwPersistTimes_lower freq, ?_⟩
  intro fuel
  induction fuel with
  | zero => intro lastSave ds w; simp [pwPersistTimes]
  | succ fuel ih =>
    intro lastSave ds w
    rw [pwPersistTimes, List.filter_cons]
    set pt := pwPersistInstant freq lastSave ds with hpt
    have hptEq : pt = lastSave + freq := pwPersistInstant_eq freq lastSave ds
    by_cases hin : w ≤ pt ∧ pt < w + freq
    · have hcond : (decide (w ≤ pt) && decide (pt < w + freq)) = true := by
        simp [hin.1, hin.2]
      rw [if_pos hcond]
      have hnil : (pwPersistTimes freq fuel pt
          (ds.filter (fun t => decide (pt < t)))).filter
            (fun p => decide (w ≤ p) && decide (p < w + freq)) = [] := by
        apply List.filter_eq_nil_iff.mpr
        intro a ha
        have hlow := pwPersistTimes_lower freq fuel pt _ a ha
        have : ¬ a < w + freq := by omega
        simp [this]
      rw [hnil]
      simp
    · have hcond : (decide (w ≤ pt) && decide (pt < w + freq)) = false := by
        rcases Decidable.not_and_iff_or_not.mp hin with h | h <;> simp [h]
      rw [if_neg (by simp [hcond])]
      exact ih pt _ w

/-- Witness for C3 at `checkpoint_freq = 10`: persists land at 10 and
20 for a burst of dirty signals, and each window holds at most one. -/
theorem c3_witness :
    (∀ p, p ∈ pwPersistTimes 10 2 0 [1, 2, 3, 12] → 0 + 10 ≤ p) ∧
    ((pwPersistTimes 10 2 0 [1, 2, 3, 12]).filter
        (fun p => decide (0 ≤ p) && decide (p < 0 + 10))).length ≤ 1 ∧
    pwPersistTimes 10 2 0 [1, 2, 3, 12] = [10, 20] :=
  ⟨fun p => (c3_persist_throttling 10 (by omega)).1 2 0 [1, 2, 3, 12] p,
    (c3_persist_throttling 10 (by omega)).2 2 0 [1, 2, 3, 12] 0,
    by decide⟩

/-- C7 counterexample: the presign-upload handler of server.rs performs
no content-type validation, so a request with `application/pdf`
(top-level type neither image nor video) is answered with a minted
upload URL instead of a 'disallowed type' error. -/
theorem c7_counterexample :
    is_allowed_content_type "application/pdf" = false ∧
    generate_upload_presigned_url_main ⟨true, true, "abc123"⟩ "d1"
        "application/pdf" =
      .ok ⟨"https://store.example/d1/assets/abc123.pdf", "abc123.pdf"⟩ := by
  exact ⟨rfl, rfl⟩

/-- C7 (amended): the presign-upload handler of server_ext.rs rejects
every content type whose top-level MIME type is not image or video with
a 'disallowed type' error (no URL is minted), and for an allowed
content type on an existing document it returns an upload URL together
with an `asset_id` of the form `{id}{.ext}`; the near-duplicate
handler of server.rs mints the URL without this check. -/
theorem c7_upload_content_type_gate :
    (∀ (ctx : UploadCtx) (docId ct : String),
        ctx.tokenOk = true → ctx.docFound = true →
        is_allowed_content_type ct = false →
        generate_upload_presigned_url_ext ctx docId ct =
          .error .badRequest) ∧
    (∀ (ctx : UploadCtx) (docId ct : String),
        ctx.tokenOk = true → ctx.docFound = true →
        is_allowed_content_type ct = true →
        generate_upload_presigned_url_ext ctx docId ct =
          .ok ⟨presignUrl (docId ++ "/assets/" ++
                (ctx.assetIdGen ++ get_extension_from_content_type ct)),
              ctx.assetIdGen ++ get_extension_from_content_type ct⟩) := by
  constructor
  · intro ctx docId ct htok hdoc hct
    simp [generate_upload_presigned_url_ext, htok, hdoc, hct]
  · intro ctx docId ct htok hdoc hct
    simp [generate_upload_presigned_url_ext, htok, hdoc, hct]

/-- Witness for C7's amended theorem: a pdf is rejected by the gated
handler, a png is presigned with asset id `{cuid}.png`. -/
theorem c7_witness :
    generate_upload_presigned_url_ext ⟨true, true, "abc123"⟩ "d1"
        "application/pdf" = .error .badRequest ∧
    generate_upload_presigned_url_ext ⟨true, true, "abc123"⟩ "d1"
        "image/png" =
      .ok ⟨presignUrl ("d1" ++ "/assets/" ++
            ("abc123" ++ get_extension_from_content_type "image/png")),
          "abc123" ++ get_extension_from_content_type "image/png"⟩ :=
  ⟨(c7_upload_content_type_gate).1 ⟨true, true, "abc123"⟩ "d1"
      "application/pdf" rfl rfl rfl,
    (c7_upload_content_type_gate).2 ⟨true, true, "abc123"⟩ "d1"
      "image/png" rfl rfl rfl⟩

/-- Dropping the leading slashes leaves a list that does not start with
a slash. -/
theorem dropWhile_isSlash_head :
    ∀ (l : Key), (l.dropWhile isSlash).head? ≠ some '/' := by
  intro l
  induction l with
  | nil => simp [List.dropWhile]
  | cons c t ih =>
    by_cases hc : c = '/'
    · simpa [List.dropWhile_cons, isSlash, hc] using ih
    · simp [List.dropWhile_cons, isSlash, hc]

/-- The head of a trimmed-start key is not a slash. -/
theorem trimStart_head (k : Key) : (trimStartSlashes k).head? ≠ some '/' :=
  dropWhile_isSlash_head k

/-- The last character of a trimmed-end key is not a slash. -/
theorem trimEnd_getLast (p : Key) :
    (trimEndSlashes p).getLast? ≠ some '/' := by
  rw [trimEndSlashes, List.getLast?_reverse]
  exact dropWhile_isSlash_head p.reverse

/-- Trimming leading slashes does nothing to a key that does not start
with one. -/
theorem trimStart_append {d : Key} (hd : d ≠ []) (hh : d.head? ≠ some '/')
    (xs : Key) : trimStartSlashes (d ++ xs) = d ++ xs := by
  cases d with
  | nil => exact absurd rfl hd
  | cons c t =>
    have hc : ¬ c = '/' := by simpa using hh
    simp [trimStartSlashes, List.dropWhile_cons, isSlash, hc]

/-- A trailing slash is absorbed by the end trim. -/
theorem trimEnd_append_slash (xs : Key) :
    trimEndSlashes (xs ++ ['/']) = trimEndSlashes xs := by
  simp [trimEndSlashes, List.reverse_append, List.dropWhile_cons, isSlash]

/-- Trimming trailing slashes does nothing past a suffix that does not
end with one. -/
theorem trimEnd_append {d : Key} (hd : d ≠ []) (hl : d.getLast? ≠ some '/')
    (xs : Key) : trimEndSlashes (xs ++ d) = xs ++ d := by
  obtain ⟨c, t, hct⟩ : ∃ c t, d.reverse = c :: t := by
    cases hrev : d.reverse with
    | nil =>
      exact absurd (by simpa using congrArg List.reverse hrev) hd
    | cons c t => exact ⟨c, t, rfl⟩
  have hc : ¬ c = '/' := by
    have hg : d.getLast? = some c := by
      rw [← List.head?_reverse, hct]; rfl
    intro h
    rw [h] at hg
    exact hl hg
  have hd2 : d = (c :: t).reverse := by rw [← hct, List.reverse_reverse]
  subst hd2
  simp [trimEndSlashes, List.reverse_append, List.dropWhile_cons, isSlash, hc]

/-- Trimming trailing slashes does nothing to a key that does not end
with one. -/
theorem trimEnd_self {d : Key} (hd : d ≠ []) (hl : d.getLast? ≠ some '/') :
    trimEndSlashes d = d := by
  simpa using trimEnd_append hd hl []

/-- Trimming both ends does nothing to a non-empty key with no slash at
either end. -/
theorem trimSlashes_self {d : Key} (hd : d ≠ []) (hh : d.head? ≠ some '/')
    (hl : d.getLast? ≠ some '/') : trimSlashes d = d := by
  rw [trimSlashes, trimEnd_self hd hl]
  simpa using trimStart_append hd hh []

/-- Stripping a prefix it just adjoined succeeds and recovers the
remainder. -/
theorem stripPfx_append : ∀ (a b : Key), stripPfx a (a ++ b) = some b := by
  intro a
  induction a with
  | nil => intro b; rfl
  | cons c t ih => intro b; simp [stripPfx, ih]

/-- A successful strip means the string was the prefix followed by the
remainder. -/
theorem stripPfx_eq_some :
    ∀ (a s r : Key), stripPfx a s = some r → s = a ++ r := by
  intro a
  induction a with
  | nil =>
    intro s r h
    simpa [stripPfx] using h
  | cons c t ih =>
    intro s r h
    cases s with
    | nil => exact absurd h (by simp [stripPfx])
    | cons b bs =>
      rw [stripPfx] at h
      by_cases hc : c = b
      · rw [if_pos hc] at h
        rw [List.cons_append, ih bs r h, hc]
      · rw [if_neg hc] at h
        cases h

/-- The prefixed key of `{d}/{rel}` is the listing prefix for `{d}/`
followed by `rel`: listing with prefix `{d}/` and stripping recovers
exactly the relative suffix. -/
theorem listPfx_append_eq {d : Key} (hd : d ≠ []) (hh : d.head? ≠ some '/')
    (hl : d.getLast? ≠ some '/') (pf : Option Key) (rel : Key) :
    prefixed_key pf (d ++ '/' :: rel) = listPfx pf (d ++ ['/']) ++ rel := by
  cases pf with
  | none =>
    show d ++ '/' :: rel = (trimEndSlashes (d ++ ['/']) ++ ['/']) ++ rel
    rw [trimEnd_append_slash, trimEnd_self hd hl]
    simp
  | some p =>
    have h1 : ¬ (d ++ '/' :: rel = []) := by simp
    have h2 : ¬ (d ++ ['/'] = []) := by simp
    show (if d ++ '/' :: rel = [] then p
        else trimEndSlashes p ++ '/' :: trimStartSlashes (d ++ '/' :: rel)) =
      (trimEndSlashes (if d ++ ['/'] = [] then p
        else trimEndSlashes p ++ '/' :: trimStartSlashes (d ++ ['/'])) ++ ['/'])
        ++ rel
    rw [if_neg h1, if_neg h2, trimStart_append hd hh, trimStart_append hd hh]
    have e3 : trimEndSlashes p ++ '/' :: (d ++ ['/']) =
        ((trimEndSlashes p ++ ['/']) ++ d) ++ ['/'] := by simp
    rw [e3, trimEnd_append_slash, trimEnd_append hd hl]
    simp

/-- C8: `prefixed_key` leaves the key unchanged with no prefix
configured; with a prefix it joins with exactly one slash (the prefix's
trailing slashes and the key's leading slashes trimmed, so neither side
of the join carries a slash); and stripping the full listing prefix, as
`list_objects` does, recovers the original logical key, so a stored key
round-trips unchanged. -/
theorem c8_prefixed_key_roundtrip :
    (∀ (k : Key), prefixed_key none k = k) ∧
    (∀ (p k : Key), k ≠ [] →
        prefixed_key (some p) k =
          trimEndSlashes p ++ '/' :: trimStartSlashes k ∧
        (trimEndSlashes p).getLast? ≠ some '/' ∧
        (trimStartSlashes k).head? ≠ some '/') ∧
    (∀ (pf : Option Key) (d name : Key), d ≠ [] → d.head? ≠ some '/' →
        d.getLast? ≠ some '/' → name ≠ [] →
        stripPfx (listPfx pf (d ++ ['/']))
            (prefixed_key pf (d ++ '/' :: name)) = some name ∧
        (d ++ ['/']) ++ name = d ++ '/' :: name) := by
  refine ⟨fun k => rfl,
    fun p k hk => ⟨by simp [prefixed_key, hk], trimEnd_getLast p,
      trimStart_head k⟩,
    fun pf d name hd hh hl hn => ⟨?_, by simp⟩⟩
  rw [listPfx_append_eq hd hh hl pf name, stripPfx_append]

/-- Witness for C8 with prefix `app//`, doc dir `d1` and object name
`f.png`. -/
theorem c8_witness :
    prefixed_key none "d1/f.png".toList = "d1/f.png".toList ∧
    prefixed_key (some "app//".toList) "d1/f.png".toList =
      trimEndSlashes "app//".toList ++ '/' ::
        trimStartSlashes "d1/f.png".toList ∧
    stripPfx (listPfx (some "app//".toList) ("d1".toList ++ ['/']))
        (prefixed_key (some "app//".toList)
          ("d1".toList ++ '/' :: "f.png".toList)) =
      some "f.png".toList :=
  ⟨(c8_prefixed_key_roundtrip).1 "d1/f.png".toList,
    ((c8_prefixed_key_roundtrip).2.1 "app//".toList "d1/f.png".toList
      (by decide)).1,
    ((c8_prefixed_key_roundtrip).2.2 (some "app//".toList) "d1".toList
      "f.png".toList (by decide) (by decide) (by decide) (by decide)).1⟩

/-- A slash-free key does not start with a slash. -/
theorem slashFree_head {d : Key} (h : slashFree d) : d.head? ≠ some '/' := by
  cases d with
  | nil => simp
  | cons c t =>
    intro hc
    exact h c (List.mem_cons_self _ _) (by simpa using hc)

/-- A slash-free key does not end with a slash. -/
theorem slashFree_getLast {d : Key} (h : slashFree d) :
    d.getLast? ≠ some '/' := by
  intro hc
  have : '/' ∈ d := List.mem_of_getLast?_eq_some hc
  exact h '/' this rfl

/-- Two slash-free segments joined to remainders by a slash are equal
exactly componentwise: the first slash is unambiguous. -/
theorem append_sep_inj :
    ∀ (a b x y : Key), slashFree a → slashFree b →
      a ++ '/' :: x = b ++ '/' :: y → a = b ∧ x = y := by
  intro a
  induction a with
  | nil =>
    intro b x y _ hb h
    cases b with
    | nil => simpa using h
    | cons c bt =>
      have hc : '/' = c := by
        have := congrArg List.head? h
        simpa using this
      exact absurd hc.symm (hb c (List.mem_cons_self _ _))
  | cons c t ih =>
    intro b x y ha hb h
    cases b with
    | nil =>
      have hc : c = '/' := by
        have := congrArg List.head? h
        simpa using this
      exact absurd hc (ha c (List.mem_cons_self _ _))
    | cons c2 bt =>
      rw [List.cons_append, List.cons_append, List.cons.injEq] at h
      have ht := ih bt x y
        (fun z hz => ha z (List.mem_cons_of_mem _ hz))
        (fun z hz => hb z (List.mem_cons_of_mem _ hz)) h.2
      exact ⟨by rw [List.cons.injEq]; exact ⟨h.1, ht.1⟩, ht.2⟩

/-- `prefixed_key` keeps distinct `{segment}/{rel}` keys distinct when
the segments are slash-free doc ids. -/
theorem prefixed_sep_inj (pf : Option Key) {a b : Key} (x y : Key)
    (ha : a ≠ []) (haf : slashFree a) (hb : b ≠ []) (hbf : slashFree b)
    (h : prefixed_key pf (a ++ '/' :: x) = prefixed_key pf (b ++ '/' :: y)) :
    a = b ∧ x = y := by
  cases pf with
  | none => exact append_sep_inj a b x y haf hbf h
  | some p =>
    have h1 : ¬ (a ++ '/' :: x = []) := by simp
    have h2 : ¬ (b ++ '/' :: y = []) := by simp
    rw [prefixed_key, if_neg h1, prefixed_key, if_neg h2,
      trimStart_append ha (slashFree_head haf),
      trimStart_append hb (slashFree_head hbf)] at h
    have h' : trimEndSlashes p ++ ('/' :: (a ++ '/' :: x)) =
        trimEndSlashes p ++ ('/' :: (b ++ '/' :: y)) := by simpa using h
    have h3 := List.append_cancel_left h'
    exact append_sep_inj a b x y haf hbf (by simpa using h3)

/-- Looking up the key just written returns the written value. -/
theorem lookup_set_self (st : StoreMap) (k : Key) (v : Bytes) :
    lookupKey (setKey st k v) k = some v := by
  simp [lookupKey, setKey, List.find?_cons_of_pos]

/-- Writing one key does not disturb lookups of another. -/
theorem lookup_set_ne {q k : Key} (hne : q ≠ k) (st : StoreMap) (v : Bytes) :
    lookupKey (setKey st k v) q = lookupKey st q := by
  have hk : ¬ (k = q) := fun h => hne h.symm
  simp [lookupKey, setKey, List.find?_cons_of_neg, hk]

/-- A key with an entry in the store has a successful lookup. -/
theorem lookup_isSome_of_mem {st : StoreMap} {k : Key} {v : Bytes}
    (h : (k, v) ∈ st) : (lookupKey st k).isSome := by
  have : (st.find? (fun e => decide (e.1 = k))).isSome :=
    List.find?_isSome.mpr ⟨(k, v), h, by simp⟩
  simpa [lookupKey] using this

/-- A successful lookup comes from an entry of the store under that
key. -/
theorem lookup_eq_some_mem {st : StoreMap} {k : Key} {v : Bytes}
    (h : lookupKey st k = some v) : (k, v) ∈ st := by
  unfold lookupKey at h
  cases hf : st.find? (fun e => decide (e.1 = k)) with
  | none => rw [hf] at h; cases h
  | some e =>
    rw [hf] at h
    have he : e ∈ st := List.mem_of_find?_eq_some hf
    have hp := List.find?_some hf
    have h1 : e.1 = k := by simpa using hp
    have h2 : e.2 = v := by simpa using h
    cases e with
    | mk a b =>
      cases h1
      cases h2
      exact he

/-- A store entry below the listing prefix is listed under its relative
suffix. -/
theorem list_objects_mem_of {pf : Option Key} {st : StoreMap} {q : Key}
    {e : Key × Bytes} {r : Key} (he : e ∈ st)
    (hstrip : stripPfx (listPfx pf q) e.1 = some r) (hr : r ≠ []) :
    r ∈ list_objects pf st q :=
  List.mem_filterMap.mpr ⟨e, he, by rw [hstrip]; simp [hr]⟩

/-- Everything `list_objects` returns is the non-empty relative suffix
of a stored key below the listing prefix. -/
theorem list_objects_mem_elim {pf : Option Key} {st : StoreMap} {q r : Key}
    (h : r ∈ list_objects pf st q) :
    ∃ e ∈ st, e.1 = listPfx pf q ++ r ∧ r ≠ [] := by
  obtain ⟨e, he, hfe⟩ := List.mem_filterMap.mp h
  cases hs : stripPfx (listPfx pf q) e.1 with
  | none => rw [hs] at hfe; simp at hfe
  | some r0 =>
    rw [hs] at hfe
    by_cases hr0 : r0 = []
    · rw [hr0] at hfe; simp at hfe
    · have : r0 = r := by simpa [hr0] using hfe
      subst this
      exact ⟨e, he, stripPfx_eq_some _ _ _ hs, hr0⟩

/-- The copy loop of `S3Store::copy_document`: when source reads and
destination writes can never collide and destination keys are
injective in the relative suffix, the fold over the listed entries
succeeds, every listed suffix ends up stored under the destination with
the value the source held in the base store, and keys outside the
written set are untouched. -/
theorem copy_fold_spec (pf : Option Key) (src dst : Key) (base : StoreMap)
    (hRW : ∀ r q, prefixed_key pf (src ++ '/' :: r) ≠
        prefixed_key pf (dst ++ '/' :: q))
    (hW : ∀ r q, prefixed_key pf (dst ++ '/' :: r) =
        prefixed_key pf (dst ++ '/' :: q) → r = q) :
    ∀ (entries : List Key) (acc : StoreMap),
      (∀ r, lookupKey acc (prefixed_key pf (src ++ '/' :: r)) =
          lookupKey base (prefixed_key pf (src ++ '/' :: r))) →
      (∀ r ∈ entries,
          (lookupKey base (prefixed_key pf (src ++ '/' :: r))).isSome) →
      ∃ final, entries.foldlM (copyStep pf src dst) acc = .ok final ∧
        (∀ r ∈ entries,
            lookupKey final (prefixed_key pf (dst ++ '/' :: r)) =
              lookupKey base (prefixed_key pf (src ++ '/' :: r))) ∧
        (∀ k, (∀ r ∈ entries, k ≠ prefixed_key pf (dst ++ '/' :: r)) →
            lookupKey final k = lookupKey acc k) := by
  intro entries
  induction entries with
  | nil =>
    intro acc hstable _
    exact ⟨acc, rfl, by simp, fun k _ => rfl⟩
  | cons e rest ih =>
    intro acc hstable hhave
    obtain ⟨v, hv⟩ : ∃ v,
        lookupKey acc (prefixed_key pf (src ++ '/' :: e)) = some v := by
      have h1 := hhave e (List.mem_cons_self _ _)
      rw [← hstable e] at h1
      exact Option.isSome_iff_exists.mp h1
    have hbase : lookupKey base (prefixed_key pf (src ++ '/' :: e)) =
        some v := by rw [← hstable e]; exact hv
    have hstep : copyStep pf src dst acc e =
        .ok (setKey acc (prefixed_key pf (dst ++ '/' :: e)) v) := by
      rw [copyStep, copy_object_server_side, hv]
    have hstable1 : ∀ r,
        lookupKey (setKey acc (prefixed_key pf (dst ++ '/' :: e)) v)
            (prefixed_key pf (src ++ '/' :: r)) =
          lookupKey base (prefixed_key pf (src ++ '/' :: r)) := by
      intro r
      rw [lookup_set_ne (hRW r e), hstable r]
    obtain ⟨final, hfold, hcopied, hframe⟩ := ih
      (setKey acc (prefixed_key pf (dst ++ '/' :: e)) v) hstable1
      (fun r hr => hhave r (List.mem_cons_of_mem _ hr))
    refine ⟨final, ?_, ?_, ?_⟩
    · rw [List.foldlM_cons, hstep]
      simpa using hfold
    · intro r hr
      rcases List.mem_cons.mp hr with h | h
      · subst h
        by_cases hmem : r ∈ rest
        · exact hcopied r hmem
        · have hnot : ∀ q ∈ rest,
              prefixed_key pf (dst ++ '/' :: r) ≠
                prefixed_key pf (dst ++ '/' :: q) := by
            intro q hq heq
            exact hmem (hW r q heq ▸ hq)
          rw [hframe _ hnot, lookup_set_self, hbase]
      · exact hcopied r h
    · intro k hk
      rw [hframe k (fun r hr => hk r (List.mem_cons_of_mem _ hr)),
        lookup_set_ne (hk e (List.mem_cons_self _ _))]

/-- C6: for a `copy_document` request (authenticated, valid slash-free
distinct ids, source exists) whose source is loaded in memory, the
source's SyncKv is persisted before the store copy runs, the copy
succeeds, every object below `{src}/` in the persisted store is
transferred to `{dst}/` under the same relative suffix (overwriting any
destination entry), and in particular the destination snapshot equals
the just-persisted in-memory state of the source. -/
theorem c6_copy_document (pf : Option Key) (st : CopySrvState)
    (src dst : Key) (snap : Bytes)
    (hs : src ≠ []) (hsf : slashFree src)
    (hd : dst ≠ []) (hdf : slashFree dst)
    (hne : src ≠ dst)
    (hload : lookupDoc st.docs src = some snap) :
    ∃ final,
      s3_copy_document pf (persistDoc pf st src) src dst = .ok final ∧
      copy_document pf true true true true st src dst = .ok final ∧
      (∀ rel v, rel ≠ [] →
          lookupKey (persistDoc pf st src)
              (prefixed_key pf (src ++ '/' :: rel)) = some v →
          lookupKey final (prefixed_key pf (dst ++ '/' :: rel)) = some v) ∧
      lookupKey final (prefixed_key pf (dst ++ '/' :: dataRel)) =
        some snap := by
  have hsh := slashFree_head hsf
  have hsl := slashFree_getLast hsf
  have hdh := slashFree_head hdf
  have hdl := slashFree_getLast hdf
  have htrS : trimSlashes src = src := trimSlashes_self hs hsh hsl
  have htrD : trimSlashes dst = dst := trimSlashes_self hd hdh hdl
  set base := persistDoc pf st src with hbase
  have hRW : ∀ r q, prefixed_key pf (src ++ '/' :: r) ≠
      prefixed_key pf (dst ++ '/' :: q) := by
    intro r q heq
    exact hne (prefixed_sep_inj pf r q hs hsf hd hdf heq).1
  have hW : ∀ r q, prefixed_key pf (dst ++ '/' :: r) =
      prefixed_key pf (dst ++ '/' :: q) → r = q := by
    intro r q heq
    exact (prefixed_sep_inj pf r q hd hdf hd hdf heq).2
  have hhave : ∀ r ∈ list_objects pf base (src ++ ['/']),
      (lookupKey base (prefixed_key pf (src ++ '/' :: r))).isSome := by
    intro r hr
    obtain ⟨e, he, hkey, hrne⟩ := list_objects_mem_elim hr
    have : e.1 = prefixed_key pf (src ++ '/' :: r) := by
      rw [hkey, ← listPfx_append_eq hs hsh hsl pf r]
    cases e with
    | mk a b =>
      cases this
      exact lookup_isSome_of_mem he
  obtain ⟨final, hfold, hcopied, _⟩ := copy_fold_spec pf src dst base hRW hW
    (list_objects pf base (src ++ ['/'])) base (fun r => rfl) hhave
  have hcopy : s3_copy_document pf base src dst = .ok final := by
    rw [s3_copy_document, htrS, htrD]
    exact hfold
  have hdata : lookupKey base (prefixed_key pf (src ++ '/' :: dataRel)) =
      some snap := by
    rw [hbase, persistDoc, hload]
    exact lookup_set_self _ _ _
  have htransfer : ∀ rel v, rel ≠ [] →
      lookupKey base (prefixed_key pf (src ++ '/' :: rel)) = some v →
      lookupKey final (prefixed_key pf (dst ++ '/' :: rel)) = some v := by
    intro rel v hrel hlook
    have hmem : rel ∈ list_objects pf base (src ++ ['/']) := by
      apply list_objects_mem_of (lookup_eq_some_mem hlook)
      · rw [listPfx_append_eq hs hsh hsl pf rel]
        exact stripPfx_append _ _
      · exact hrel
    rw [hcopied rel hmem, hlook]
  refine ⟨final, hcopy, ?_, htransfer, ?_⟩
  · rw [copy_document]
    simp only [Bool.not_true, Bool.false_eq_true, if_false]
    rw [← hbase, hcopy]
  · exact htransfer dataRel snap (by simp [dataRel]) hdata

/-- Witness for C6: doc `d6` (in-memory snapshot `[1, 2]`, one stored
asset) copied to `d7` under bucket prefix `pre`. -/
theorem c6_witness :
    ∃ final,
      s3_copy_document (some "pre".toList)
          (persistDoc (some "pre".toList)
            ⟨[("d6".toList, [1, 2])], [("pre/d6/assets/a.png".toList, [7])]⟩
            "d6".toList)
          "d6".toList "d7".toList = .ok final ∧
      copy_document (some "pre".toList) true true true true
          ⟨[("d6".toList, [1, 2])], [("pre/d6/assets/a.png".toList, [7])]⟩
          "d6".toList "d7".toList = .ok final ∧
      (∀ rel v, rel ≠ [] →
          lookupKey (persistDoc (some "pre".toList)
              ⟨[("d6".toList, [1, 2])],
                [("pre/d6/assets/a.png".toList, [7])]⟩ "d6".toList)
              (prefixed_key (some "pre".toList) ("d6".toList ++ '/' :: rel)) =
            some v →
          lookupKey final
              (prefixed_key (some "pre".toList) ("d7".toList ++ '/' :: rel)) =
            some v) ∧
      lookupKey final
          (prefixed_key (some "pre".toList) ("d7".toList ++ '/' :: dataRel)) =
        some [1, 2] :=
  c6_copy_document (some "pre".toList)
    ⟨[("d6".toList, [1, 2])], [("pre/d6/assets/a.png".toList, [7])]⟩
    "d6".toList "d7".toList [1, 2]
    (by decide) (by unfold slashFree; decide) (by decide)
    (by unfold slashFree; decide) (by decide) (by decide)

end YSweet
